import Mathlib

/-!
Shallow embedding of the rx reactive-streams library (src/src/lib.rs together
with the components exercised by src/tests/rx.rs), and proofs of the
specified properties.  Components that the repository references but whose
source is not under src/ (the observer adapter module, the Subject multicast
hub and the continue_with combinator) are modelled from the specification;
each such definition says so in its documentation.
-/

namespace Rx

variable {α ε σ : Type}

/-- Events that an observer can receive: a value, completion, or an error. -/
inductive Ev (α ε : Type) where
  | next (x : α)
  | completed
  | error (e : ε)
deriving DecidableEq

/-- An event is terminal when it is completion or an error. -/
def Ev.isTerminal : Ev α ε → Bool
  | .next _ => false
  | .completed => true
  | .error _ => true

/-- The three-method observer contract of src/src/lib.rs (trait Observer),
acting on an explicit observer state of type `σ`. -/
structure Observer (σ α ε : Type) where
  on_next : σ → α → σ
  on_completed : σ → σ
  on_error : σ → ε → σ

/-- Apply one event to an observer state through the corresponding method. -/
def applyEv (obs : Observer σ α ε) (s : σ) : Ev α ε → σ
  | .next x => obs.on_next s x
  | .completed => obs.on_completed s
  | .error e => obs.on_error s e

/-- Embeds `UncancellableSubscription` of src/src/lib.rs lines 83 to 87. -/
structure UncancellableSubscription where
  mk ::

/-- Embeds the `Drop` impl for `UncancellableSubscription`: the body is
empty, so disposal leaves every surrounding state `w` unchanged. -/
def UncancellableSubscription.drop (_u : UncancellableSubscription) (w : σ) : σ := w

/-- Embeds `impl<'i, I> Observable for &'i I` (src/src/lib.rs lines 89 to
102): `subscribe` iterates over the collection invoking `on_next` for each
element, then invokes `on_completed`, then returns an
`UncancellableSubscription`.  The associated Error type is fixed to the unit
type in the source (`type Error = ()`), embedded here as `Unit`. -/
def iterSubscribe (obs : Observer σ α Unit) (xs : List α) (s : σ) :
    σ × UncancellableSubscription :=
  (obs.on_completed (xs.foldl obs.on_next s), UncancellableSubscription.mk)

/-- Specification-side event sequence for the iterable observable: one next
event per element in iteration order followed by a single completion. -/
def iterTrace (xs : List α) : List (Ev α Unit) :=
  xs.map Ev.next ++ [Ev.completed]

/-- Outcome of invoking an observer callback: a normal new state, or a
process abort carrying a diagnostic message. -/
inductive Outcome (σ : Type) where
  | ok (s : σ)
  | aborted (msg : String)

/-- Modelled from the spec: `NextObserver` of the observer module named in
src/src/lib.rs line 10, whose source is not under src/.  It wraps only an
on_next closure. -/
structure NextObserver (σ α : Type) where
  fn_next : σ → α → σ

/-- Modelled from the spec: on_next of the next-only adapter forwards to the
wrapped closure. -/
def NextObserver.on_next (o : NextObserver σ α) (s : σ) (x : α) : Outcome σ :=
  Outcome.ok (o.fn_next s x)

/-- Modelled from the spec: on_completed of the next-only adapter is a
no-op. -/
def NextObserver.on_completed (_o : NextObserver σ α) (s : σ) : Outcome σ :=
  Outcome.ok s

/-- Modelled from the spec: on_error of the next-only adapter is fatal; the
process is aborted with a diagnostic that includes the textual
representation of the error, where `fmt` stands for the Debug formatting
function of the error type. -/
def NextObserver.on_error (_o : NextObserver σ α) (fmt : ε → String) (_s : σ) (e : ε) :
    Outcome σ :=
  Outcome.aborted ("error delivered to observer without error handler: " ++ fmt e ++ "; aborting")

/-- Modelled from the spec: `ResultObserver` of the observer module named in
src/src/lib.rs line 10, whose source is not under src/.  It wraps a single
closure receiving a two-armed result. -/
structure ResultObserver (σ α ε : Type) where
  fn_result : σ → Except ε (Option α) → σ

/-- Modelled from the spec: on_next of the result adapter calls the closure
with the value wrapped as an Ok-Some. -/
def ResultObserver.on_next (o : ResultObserver σ α ε) (s : σ) (x : α) : Outcome σ :=
  Outcome.ok (o.fn_result s (Except.ok (some x)))

/-- Modelled from the spec: on_completed of the result adapter calls the
closure with Ok-None. -/
def ResultObserver.on_completed (o : ResultObserver σ α ε) (s : σ) : Outcome σ :=
  Outcome.ok (o.fn_result s (Except.ok none))

/-- Modelled from the spec: on_error of the result adapter calls the closure
with the error wrapped in the error arm; there is no fatal path. -/
def ResultObserver.on_error (o : ResultObserver σ α ε) (s : σ) (e : ε) : Outcome σ :=
  Outcome.ok (o.fn_result s (Except.error e))

/-- Concrete observer used as a witness input. -/
def obsA : Observer Nat Nat Unit :=
  ⟨fun s x => s + x, fun s => s * 2, fun s _ => s + 100⟩

/-- Concrete observer that differs from `obsA` only in the on_error field. -/
def obsB : Observer Nat Nat Unit :=
  ⟨fun s x => s + x, fun s => s * 2, fun s _ => s + 999⟩

/-- Modelled from the spec: reentrant actions a subscriber callback may take
against the Subject that is invoking it (sections 4.2 and 5 of the spec):
nothing, dispose its own subscription, dispose some subscription by
identity, or subscribe a new observer.  The Subject source is not under
src/. -/
inductive Reaction where
  | passive
  | disposeSelf
  | disposeSub (j : Nat)
  | subscribeNew
deriving DecidableEq

/-- A reaction is a disposal when it clears some slot. -/
def Reaction.isDispose : Reaction → Bool
  | .disposeSelf => true
  | .disposeSub _ => true
  | _ => false

/-- Modelled from the spec: the state of a Subject (section 4.2): an ordered
list of slots, each empty or holding the identity of one subscription; a
fresh-identity counter; the terminated flag; the chronological delivery
trace (subscription identity paired with the delivered event); and the
cumulative number of value clones made by on_next dispatch. -/
structure SubjectState (α ε : Type) where
  slots : List (Option Nat)
  nextId : Nat
  terminated : Bool
  trace : List (Nat × Ev α ε)
  clones : Nat

/-- A fresh Subject: no slots, not terminated, nothing delivered. -/
def subjectInit : SubjectState α ε := ⟨[], 0, false, [], 0⟩

/-- Clear every slot holding subscription identity j (disposal). -/
def clearSub (j : Nat) (l : List (Option Nat)) : List (Option Nat) :=
  l.map (fun o => if o = some j then none else o)

/-- Modelled from the spec: effect of a reentrant callback action; a
subscribe performed after termination registers nothing (section 4.2). -/
def applyReaction (r : Reaction) (selfId : Nat) (s : SubjectState α ε) : SubjectState α ε :=
  match r with
  | .passive => s
  | .disposeSelf => { s with slots := clearSub selfId s.slots }
  | .disposeSub j => { s with slots := clearSub j s.slots }
  | .subscribeNew =>
      if s.terminated then s
      else { s with slots := s.slots ++ [some s.nextId], nextId := s.nextId + 1 }

/-- Modelled from the spec: delivery of one next event to one slot of the
start-of-push snapshot: slots cleared earlier during the same dispatch are
skipped; a delivered value is cloned once; the reentrant reaction of the
invoked callback is applied afterwards. -/
def deliverNext (β : Nat → Reaction) (v : α) (s : SubjectState α ε) (o : Option Nat) :
    SubjectState α ε :=
  match o with
  | none => s
  | some i =>
      if some i ∈ s.slots then
        applyReaction (β i) i
          { s with trace := s.trace ++ [(i, Ev.next v)], clones := s.clones + 1 }
      else s

/-- Modelled from the spec: on_next (section 4.2): a no-op when terminated,
otherwise dispatch over a snapshot of the slots taken at the start of the
call, so that slots added during the push are not visited. -/
def subjectOnNext (β : Nat → Reaction) (v : α) (s : SubjectState α ε) : SubjectState α ε :=
  if s.terminated then s else s.slots.foldl (deliverNext β v) s

/-- Modelled from the spec: delivery of one terminal event to one snapshot
slot, with the same skip rule as next delivery. -/
def deliverTerminal (β : Nat → Reaction) (ev : Ev α ε) (s : SubjectState α ε)
    (o : Option Nat) : SubjectState α ε :=
  match o with
  | none => s
  | some i =>
      if some i ∈ s.slots then
        applyReaction (β i) i { s with trace := s.trace ++ [(i, ev)] }
      else s

/-- Modelled from the spec: shared shape of on_completed and on_error
(section 4.2): a no-op when already terminated; otherwise mark terminated,
deliver the terminal event to the snapshot of currently registered slots,
then release all slots. -/
def subjectTerminate (β : Nat → Reaction) (ev : Ev α ε) (s : SubjectState α ε) :
    SubjectState α ε :=
  if s.terminated then s
  else
    { (s.slots.foldl (deliverTerminal β ev) { s with terminated := true }) with
      slots := [] }

/-- Modelled from the spec: on_completed of a Subject. -/
def subjectOnCompleted (β : Nat → Reaction) (s : SubjectState α ε) : SubjectState α ε :=
  subjectTerminate β Ev.completed s

/-- Modelled from the spec: on_error of a Subject. -/
def subjectOnError (β : Nat → Reaction) (e : ε) (s : SubjectState α ε) : SubjectState α ε :=
  subjectTerminate β (Ev.error e) s

/-- Modelled from the spec: subscribe registers a new observer under a fresh
subscription identity; after termination nothing is registered. -/
def subjectSubscribe (s : SubjectState α ε) : SubjectState α ε :=
  if s.terminated then s
  else { s with slots := s.slots ++ [some s.nextId], nextId := s.nextId + 1 }

/-- Modelled from the spec: disposal of the subscription with identity j
clears its slot; disposing an absent identity is a no-op. -/
def subjectDispose (j : Nat) (s : SubjectState α ε) : SubjectState α ε :=
  { s with slots := clearSub j s.slots }

/-- External operations a driver can perform on a Subject. -/
inductive Op (α ε : Type) where
  | subscribe
  | dispose (j : Nat)
  | onNext (v : α)
  | onCompleted
  | onError (e : ε)

/-- One external operation applied to a Subject state, with the reentrant
behaviour of each subscription given by the function from identities to
reactions. -/
def subjectStep (β : Nat → Reaction) (s : SubjectState α ε) : Op α ε → SubjectState α ε
  | .subscribe => subjectSubscribe s
  | .dispose j => subjectDispose j s
  | .onNext v => subjectOnNext β v s
  | .onCompleted => subjectOnCompleted β s
  | .onError e => subjectOnError β e s

/-- Run a sequence of operations against a fresh Subject. -/
def subjectRun (β : Nat → Reaction) (ops : List (Op α ε)) : SubjectState α ε :=
  ops.foldl (subjectStep β) subjectInit

/-- Events delivered to subscription i, in order, projected from a trace. -/
def subTraceL (tr : List (Nat × Ev α ε)) (i : Nat) : List (Ev α ε) :=
  (tr.filter (fun p => p.1 == i)).map Prod.snd

/-- Events delivered to subscription i by a Subject, in delivery order. -/
def subTrace (s : SubjectState α ε) (i : Nat) : List (Ev α ε) :=
  subTraceL s.trace i

/-- Identities of the currently registered subscriptions, in slot order. -/
def SlotIds (s : SubjectState α ε) : List Nat :=
  s.slots.filterMap id

/-- Boolean check that a terminal event occurs only in last position. -/
def terminalLastB (tr : List (Ev α ε)) : Bool :=
  tr.dropLast.all (fun e => ! e.isTerminal)

/-- No event of the list is terminal. -/
def NoTerminal (tr : List (Ev α ε)) : Prop :=
  ∀ e ∈ tr, e.isTerminal = false

/-- Every terminal event of the list is its last element. -/
def TerminalLast (tr : List (Ev α ε)) : Prop :=
  ∀ e ∈ tr.dropLast, e.isTerminal = false

/-- Invariant of a Subject state between operations: registered identities
are pairwise distinct and below the fresh counter; unused identities have
received nothing; registered subscriptions have received no terminal event;
every per-subscription trace has terminal events only in last position; and
a terminated Subject holds no slots. -/
structure Inv (s : SubjectState α ε) : Prop where
  nodup : (SlotIds s).Nodup
  lt_next : ∀ i ∈ SlotIds s, i < s.nextId
  fresh : ∀ i, s.nextId ≤ i → subTrace s i = []
  live : ∀ i ∈ SlotIds s, NoTerminal (subTrace s i)
  tlast : ∀ i, TerminalLast (subTrace s i)
  term : s.terminated = true → s.slots = []

/-- Invariant during terminal dispatch, relative to the not-yet-visited part
of the snapshot: identities pending delivery are distinct, below the fresh
counter, and have received no terminal event yet; the terminated flag is
already set, which blocks reentrant subscription. -/
structure InvC (acc : SubjectState α ε) (pending : List (Option Nat)) : Prop where
  nodup : (SlotIds acc).Nodup
  lt_next : ∀ i ∈ SlotIds acc, i < acc.nextId
  fresh : ∀ i, acc.nextId ≤ i → subTrace acc i = []
  tlast : ∀ i, TerminalLast (subTrace acc i)
  pnodup : (pending.filterMap id).Nodup
  plive : ∀ i, some i ∈ pending → NoTerminal (subTrace acc i)
  plt : ∀ i, some i ∈ pending → i < acc.nextId
  pterm : acc.terminated = true

/-- All subscribers are passive recorders. -/
def passiveAll : Nat → Reaction := fun _ => Reaction.passive

/-- Subscription 0 disposes itself from inside its own callback. -/
def selfDispose0 : Nat → Reaction :=
  fun i => if i = 0 then Reaction.disposeSelf else Reaction.passive

/-- Subscription 0 disposes its sibling subscription 1 from inside its own
callback. -/
def disposeSibling1 : Nat → Reaction :=
  fun i => if i = 0 then Reaction.disposeSub 1 else Reaction.passive

/-- Concrete two-subscriber Subject used to refute the clone-count claim. -/
def cloneCexState : SubjectState Nat Unit :=
  subjectRun disposeSibling1 [Op.subscribe, Op.subscribe]

/-- Modelled from the spec: states of the continue_with combinator (section
4.4 of the spec); the combinator source is not under src/. -/
inductive ContState where
  | forwardingFirst
  | forwardingSecond
  | terminatedC
deriving DecidableEq

/-- An upstream event tagged with the observable it came from. -/
inductive SrcEv (α ε : Type) where
  | fromFirst (e : Ev α ε)
  | fromSecond (e : Ev α ε)
deriving DecidableEq

/-- Modelled from the spec: one transition of the continue_with state
machine (section 4.4): while forwarding the first observable, its next
values are emitted and everything from the second is discarded; completion
of the first switches to forwarding the second without emitting; an error
of the first terminates with that error; while forwarding the second, its
events are emitted as the events of the combination; the terminated state
is absorbing. -/
def continueWithStep : ContState → SrcEv α ε → ContState × List (Ev α ε)
  | .forwardingFirst, .fromFirst (.next x) => (.forwardingFirst, [.next x])
  | .forwardingFirst, .fromFirst .completed => (.forwardingSecond, [])
  | .forwardingFirst, .fromFirst (.error e) => (.terminatedC, [.error e])
  | .forwardingFirst, .fromSecond _ => (.forwardingFirst, [])
  | .forwardingSecond, .fromSecond (.next x) => (.forwardingSecond, [.next x])
  | .forwardingSecond, .fromSecond .completed => (.terminatedC, [.completed])
  | .forwardingSecond, .fromSecond (.error e) => (.terminatedC, [.error e])
  | .forwardingSecond, .fromFirst _ => (.forwardingSecond, [])
  | .terminatedC, _ => (.terminatedC, [])

/-- Run the continue_with state machine over a sequence of upstream events,
collecting the emitted downstream events. -/
def continueWithRun : ContState → List (SrcEv α ε) → ContState × List (Ev α ε)
  | st, [] => (st, [])
  | st, e :: rest =>
      let p := continueWithStep st e
      let q := continueWithRun p.1 rest
      (q.1, p.2 ++ q.2)

/-- Downstream events emitted by the combination built by continue_with,
started in its initial state. -/
def continue_with (evs : List (SrcEv α ε)) : List (Ev α ε) :=
  (continueWithRun ContState.forwardingFirst evs).2

/-- An upstream event admissible before the first observable completes: a
next value from either observable. -/
def isPhase1Ev : SrcEv α ε → Bool
  | .fromFirst (.next _) => true
  | .fromSecond (.next _) => true
  | _ => false

/-- A next value from the second observable. -/
def isSecondNextEv : SrcEv α ε → Bool
  | .fromSecond (.next _) => true
  | _ => false

/-- The next values of the first observable, in order. -/
def firstNexts : List (SrcEv α ε) → List α
  | [] => []
  | SrcEv.fromFirst (Ev.next x) :: rest => x :: firstNexts rest
  | _ :: rest => firstNexts rest

/-- The next values of the second observable, in order. -/
def secondNexts : List (SrcEv α ε) → List α
  | [] => []
  | SrcEv.fromSecond (Ev.next x) :: rest => x :: secondNexts rest
  | _ :: rest => secondNexts rest

end Rx

namespace Rx

/- Theorems for the claims about code present under src/. -/

/-- C6: for every finite iterable collection used as an Observable,
subscribe invokes on_next exactly once per element, in the collection
iteration order, then invokes on_completed exactly once, and only then
returns (with an inert subscription); no callback is invoked after subscribe
returns.  Formalised as: for every observer, the subscribe of the iterable
source is exactly the sequential application of the event sequence
`iterTrace xs` (one next per element in order, then one completion), paired
with the inert subscription value. -/
theorem iter_subscribe_replays_then_completes :
    ∀ (τ γ : Type) (obs : Observer τ γ Unit) (xs : List γ) (s : τ),
      iterSubscribe obs xs s
        = ((iterTrace xs).foldl (applyEv obs) s, UncancellableSubscription.mk) := by
  intro τ γ obs xs s
  simp [iterSubscribe, iterTrace, List.foldl_append, List.foldl_map, applyEv]

/-- C9: disposing the Subscription returned by a finite built-in source (an
UncancellableSubscription) has no effect: it changes no surrounding state
and triggers no observer callback, on every disposal including repeated
ones (iterated drops). -/
theorem uncancellable_drop_noop :
    ∀ (τ : Type) (u : UncancellableSubscription) (w : τ) (n : Nat),
      UncancellableSubscription.drop u w = w ∧
      (UncancellableSubscription.drop u)^[n] w = w := by
  intro τ u w n
  exact ⟨rfl, Function.iterate_fixed rfl n⟩

/-- C7: the next-only adapter treats on_completed as a no-op, and treats
delivery of on_error as fatal: the process is aborted with a diagnostic
message that includes the textual representation of the error, for every
error value. -/
theorem next_only_adapter_policy :
    ∀ (τ γ δ : Type) (o : NextObserver τ γ) (s : τ) (fmt : δ → String) (e : δ),
      NextObserver.on_completed o s = Outcome.ok s ∧
      ∃ p q, NextObserver.on_error o fmt s e = Outcome.aborted (p ++ fmt e ++ q) := by
  intro τ γ δ o s fmt e
  refine ⟨rfl, ?_⟩
  exact ⟨"error delivered to observer without error handler: ", "; aborting", rfl⟩

/-- C8: the result adapter maps on_next of a value to a call of the single
closure with Ok-Some of the value, on_completed to a call with Ok-None, and
on_error of an error to a call with the error arm; none of the three
operations has a fatal (aborting) path. -/
theorem result_adapter_total :
    ∀ (τ γ δ : Type) (o : ResultObserver τ γ δ) (s : τ) (x : γ) (e : δ),
      ResultObserver.on_next o s x = Outcome.ok (o.fn_result s (Except.ok (some x))) ∧
      ResultObserver.on_completed o s = Outcome.ok (o.fn_result s (Except.ok none)) ∧
      ResultObserver.on_error o s e = Outcome.ok (o.fn_result s (Except.error e)) ∧
      ∀ msg, ResultObserver.on_next o s x ≠ Outcome.aborted msg ∧
        ResultObserver.on_completed o s ≠ Outcome.aborted msg ∧
        ResultObserver.on_error o s e ≠ Outcome.aborted msg := by
  intro τ γ δ o s x e
  exact ⟨rfl, rfl, rfl, fun msg =>
    ⟨fun h => Outcome.noConfusion h, fun h => Outcome.noConfusion h,
      fun h => Outcome.noConfusion h⟩⟩

/-- C10: for every observable obtained from a finite iterable collection,
the error type is fixed to the unit type (visible in the type of
`iterSubscribe`), and on_error is never invoked on any subscribed observer:
the result of subscribe does not depend on the on_error method of the
observer, for every collection and every pair of observers agreeing on the
other two methods. -/
theorem iter_observable_never_errors (τ γ : Type) (o1 o2 : Observer τ γ Unit)
    (xs : List γ) (s : τ)
    (hn : o1.on_next = o2.on_next) (hc : o1.on_completed = o2.on_completed) :
    iterSubscribe o1 xs s = iterSubscribe o2 xs s := by
  simp [iterSubscribe, hn, hc]

/-- Witness for C10: two concrete observers differing only in on_error give
the same subscribe result on a concrete collection. -/
theorem iter_observable_never_errors_w :
    obsA.on_next = obsB.on_next ∧ obsA.on_completed = obsB.on_completed ∧
      iterSubscribe obsA [1, 2] 0 = iterSubscribe obsB [1, 2] 0 :=
  ⟨rfl, rfl, iter_observable_never_errors Nat Nat obsA obsB [1, 2] 0 rfl rfl⟩

end Rx

namespace Rx

/- Helper lemmas about the Subject trace projection. -/

theorem subTraceL_append (t1 t2 : List (Nat × Ev α ε)) (i : Nat) :
    subTraceL (t1 ++ t2) i = subTraceL t1 i ++ subTraceL t2 i := by
  simp [subTraceL, List.filter_append]

theorem subTraceL_snoc (tr : List (Nat × Ev α ε)) (j : Nat) (e : Ev α ε) (i : Nat) :
    subTraceL (tr ++ [(j, e)]) i = subTraceL tr i ++ if j = i then [e] else [] := by
  rw [subTraceL_append]
  by_cases h : j = i <;> simp [subTraceL, h]

theorem subTraceL_map_pair (j i : Nat) {γ : Type} (f : γ → Ev α ε) (l : List γ) :
    subTraceL (l.map (fun x => (j, f x))) i = if j = i then l.map f else [] := by
  induction l with
  | nil => simp [subTraceL]
  | cons x t ih =>
      by_cases h : j = i <;> (simp [subTraceL, h] at ih ⊢; try simpa using ih)

/- State-evolution lemmas for the concrete scenarios of the claims. -/

theorem step_onNext_single (v : α) (n c : Nat) (tr : List (Nat × Ev α ε)) :
    subjectStep passiveAll (⟨[some 0], n, false, tr, c⟩ : SubjectState α ε) (Op.onNext v)
      = ⟨[some 0], n, false, tr ++ [(0, Ev.next v)], c + 1⟩ := rfl

theorem pushAll_passive (n : Nat) :
    ∀ (vs : List α) (tr : List (Nat × Ev α ε)) (c : Nat),
      (vs.map Op.onNext).foldl (subjectStep passiveAll)
          (⟨[some 0], n, false, tr, c⟩ : SubjectState α ε)
        = ⟨[some 0], n, false, tr ++ vs.map (fun v => (0, Ev.next v)), c + vs.length⟩ := by
  intro vs
  induction vs with
  | nil => intro tr c; simp
  | cons v t ih =>
      intro tr c
      rw [List.map_cons, List.foldl_cons, step_onNext_single, ih]
      simp [SubjectState.mk.injEq, List.append_assoc]
      omega

theorem step_onNext_two_selfDispose (v : α) (n c : Nat) (tr : List (Nat × Ev α ε)) :
    subjectStep selfDispose0 (⟨[some 0, some 1], n, false, tr, c⟩ : SubjectState α ε)
        (Op.onNext v)
      = ⟨[none, some 1], n, false, (tr ++ [(0, Ev.next v)]) ++ [(1, Ev.next v)], c + 1 + 1⟩ :=
  rfl

theorem step_onNext_tail_selfDispose (v : α) (n c : Nat) (tr : List (Nat × Ev α ε)) :
    subjectStep selfDispose0 (⟨[none, some 1], n, false, tr, c⟩ : SubjectState α ε)
        (Op.onNext v)
      = ⟨[none, some 1], n, false, tr ++ [(1, Ev.next v)], c + 1⟩ := rfl

theorem pushTail_selfDispose (n : Nat) :
    ∀ (ws : List α) (tr : List (Nat × Ev α ε)) (c : Nat),
      (ws.map Op.onNext).foldl (subjectStep selfDispose0)
          (⟨[none, some 1], n, false, tr, c⟩ : SubjectState α ε)
        = ⟨[none, some 1], n, false, tr ++ ws.map (fun w => (1, Ev.next w)), c + ws.length⟩ := by
  intro ws
  induction ws with
  | nil => intro tr c; simp
  | cons w t ih =>
      intro tr c
      rw [List.map_cons, List.foldl_cons, step_onNext_tail_selfDispose, ih]
      simp [SubjectState.mk.injEq, List.append_assoc]
      omega

/-- C2: for a fresh Subject with one subscriber, subscribing delivers
nothing by itself, and pushing N values afterwards delivers exactly those N
values to that subscriber, in push order, with no value delivered before
subscription. -/
theorem subject_push_after_subscribe :
    ∀ (γ δ : Type) (vs : List γ),
      (subjectRun passiveAll ([Op.subscribe] : List (Op γ δ))).trace = [] ∧
      (subjectRun passiveAll (Op.subscribe :: vs.map Op.onNext) : SubjectState γ δ).trace
        = vs.map (fun v => ((0 : Nat), Ev.next v)) := by
  intro γ δ vs
  refine ⟨rfl, ?_⟩
  show ((Op.subscribe :: vs.map Op.onNext).foldl (subjectStep passiveAll)
      subjectInit).trace = _
  rw [List.foldl_cons,
    show subjectStep passiveAll (subjectInit : SubjectState γ δ) Op.subscribe
        = ⟨[some 0], 1, false, [], 0⟩ from rfl,
    pushAll_passive]
  simp

/-- C3: a subscriber of a Subject that disposes its own Subscription from
inside its first on_next callback receives exactly one value in total, no
matter how many further values are pushed afterwards, and dispatch over the
sibling slot is not corrupted: the sibling receives every pushed value in
order. -/
theorem subject_self_dispose_in_handler :
    ∀ (γ δ : Type) (v : γ) (vs : List γ),
      subTrace (subjectRun selfDispose0
          (Op.subscribe :: Op.subscribe :: (v :: vs).map Op.onNext) : SubjectState γ δ) 0
        = [Ev.next v] ∧
      subTrace (subjectRun selfDispose0
          (Op.subscribe :: Op.subscribe :: (v :: vs).map Op.onNext) : SubjectState γ δ) 1
        = (v :: vs).map Ev.next := by
  intro γ δ v vs
  have h0 : subjectRun selfDispose0
      (Op.subscribe :: Op.subscribe :: (v :: vs).map Op.onNext)
      = (((v :: vs).map Op.onNext).foldl (subjectStep selfDispose0)
          (⟨[some 0, some 1], 2, false, [], 0⟩ : SubjectState γ δ)) := rfl
  rw [h0, List.map_cons, List.foldl_cons, step_onNext_two_selfDispose,
    pushTail_selfDispose]
  constructor
  · show subTraceL _ 0 = _
    rw [subTraceL_append, subTraceL_map_pair]
    simp [subTraceL]
  · show subTraceL _ 1 = _
    rw [subTraceL_append, subTraceL_map_pair]
    simp [subTraceL]

/- Clone-count lemmas for C4. -/

theorem applyReaction_clones (r : Reaction) (i : Nat) (s : SubjectState α ε) :
    (applyReaction r i s).clones = s.clones := by
  cases r <;> simp [applyReaction]
  split <;> rfl

theorem applyReaction_mem {r : Reaction} (hr : Reaction.isDispose r = false) (i : Nat)
    (s : SubjectState α ε) (o : Option Nat) (h : o ∈ s.slots) :
    o ∈ (applyReaction r i s).slots := by
  cases r with
  | passive => exact h
  | disposeSelf => simp [Reaction.isDispose] at hr
  | disposeSub j => simp [Reaction.isDispose] at hr
  | subscribeNew =>
      rw [applyReaction]
      split
      · exact h
      · exact List.mem_append_left _ h

theorem foldClones (β : Nat → Reaction) (v : α)
    (hβ : ∀ i, Reaction.isDispose (β i) = false) :
    ∀ (snap : List (Option Nat)) (acc : SubjectState α ε),
      (∀ o ∈ snap, o ∈ acc.slots) →
      (snap.foldl (deliverNext β v) acc).clones = acc.clones + (snap.filterMap id).length := by
  intro snap
  induction snap with
  | nil => intro acc _; simp
  | cons o t ih =>
      intro acc hmem
      cases o with
      | none =>
          rw [List.foldl_cons]
          have : deliverNext β v acc none = acc := rfl
          rw [this, ih acc (fun o ho => hmem o (List.mem_cons_of_mem _ ho))]
          simp
      | some i =>
          have hm : some i ∈ acc.slots := hmem (some i) (List.mem_cons_self _ _)
          have hc : (deliverNext β v acc (some i)).clones = acc.clones + 1 := by
            simp only [deliverNext]
            rw [if_pos hm, applyReaction_clones]
          have hmem2 : ∀ o ∈ t, o ∈ (deliverNext β v acc (some i)).slots := by
            intro o ho
            simp only [deliverNext]
            rw [if_pos hm]
            exact applyReaction_mem (hβ i) i _ o (hmem o (List.mem_cons_of_mem _ ho))
          rw [List.foldl_cons, ih _ hmem2, hc]
          simp [List.filterMap_cons]
          omega

/-- C4 (amended): for every on_next push into a non-terminated Subject whose
callbacks perform no reentrant disposal (reentrant subscriptions are
allowed), the pushed value is cloned exactly once per observer registered at
the start of the push: with k live subscriptions the push performs exactly k
clones. -/
theorem subject_clones_once_per_registered (β : Nat → Reaction) (v : α)
    (s : SubjectState α ε) (ht : s.terminated = false)
    (hβ : ∀ i, Reaction.isDispose (β i) = false) :
    (subjectOnNext β v s).clones = s.clones + (SlotIds s).length := by
  rw [subjectOnNext, if_neg (by simp [ht])]
  exact foldClones β v hβ s.slots s (fun o h => h)

/-- Witness for C4: a Subject with two passive subscriptions, whose push of
one value performs exactly two clones. -/
theorem subject_clones_once_per_registered_w :
    (⟨[some 0, some 1], 2, false, [], 0⟩ : SubjectState Nat Unit).terminated = false ∧
    (∀ i, Reaction.isDispose (passiveAll i) = false) ∧
    (subjectOnNext passiveAll 5
        (⟨[some 0, some 1], 2, false, [], 0⟩ : SubjectState Nat Unit)).clones = 0 + 2 :=
  ⟨rfl, fun _ => rfl,
    subject_clones_once_per_registered passiveAll 5 _ rfl (fun _ => rfl)⟩

/-- Counterexample for C4 as frozen: a Subject with two live subscriptions
in which the first callback disposes the not-yet-visited sibling during the
push; the push performs one clone, not two. -/
theorem subject_clone_count_cex :
    (SlotIds cloneCexState).length = 2 ∧
    cloneCexState.terminated = false ∧
    (subjectOnNext disposeSibling1 5 cloneCexState).clones
      ≠ cloneCexState.clones + (SlotIds cloneCexState).length ∧
    (subjectOnNext disposeSibling1 5 cloneCexState).clones = cloneCexState.clones + 1 := by
  refine ⟨rfl, rfl, ?_, rfl⟩
  decide

end Rx

namespace Rx

/- Lemmas for the continue_with state machine. -/

theorem continueWithRun_append (l1 : List (SrcEv α ε)) :
    ∀ (st : ContState) (l2 : List (SrcEv α ε)),
      continueWithRun st (l1 ++ l2)
        = ((continueWithRun (continueWithRun st l1).1 l2).1,
          (continueWithRun st l1).2 ++ (continueWithRun (continueWithRun st l1).1 l2).2) := by
  induction l1 with
  | nil => intro st l2; simp [continueWithRun]
  | cons e t ih => intro st l2; simp [continueWithRun, ih, List.append_assoc]

theorem continueWithRun_phase1 :
    ∀ (evs : List (SrcEv α ε)), evs.all isPhase1Ev = true →
      continueWithRun ContState.forwardingFirst evs
        = (ContState.forwardingFirst, (firstNexts evs).map Ev.next) := by
  intro evs
  induction evs with
  | nil => intro _; simp [continueWithRun, firstNexts]
  | cons e t ih =>
      intro h
      rw [List.all_cons, Bool.and_eq_true] at h
      obtain ⟨h1, h2⟩ := h
      cases e with
      | fromFirst ev =>
          cases ev with
          | next x => simp [continueWithRun, continueWithStep, firstNexts, ih h2]
          | completed => simp [isPhase1Ev] at h1
          | error e => simp [isPhase1Ev] at h1
      | fromSecond ev =>
          cases ev with
          | next x => simp [continueWithRun, continueWithStep, firstNexts, ih h2]
          | completed => simp [isPhase1Ev] at h1
          | error e => simp [isPhase1Ev] at h1

theorem continueWithRun_phase2 :
    ∀ (evs : List (SrcEv α ε)), evs.all isSecondNextEv = true →
      continueWithRun ContState.forwardingSecond evs
        = (ContState.forwardingSecond, (secondNexts evs).map Ev.next) := by
  intro evs
  induction evs with
  | nil => intro _; simp [continueWithRun, secondNexts]
  | cons e t ih =>
      intro h
      rw [List.all_cons, Bool.and_eq_true] at h
      obtain ⟨h1, h2⟩ := h
      cases e with
      | fromFirst ev => simp [isSecondNextEv] at h1
      | fromSecond ev =>
          cases ev with
          | next x => simp [continueWithRun, continueWithStep, secondNexts, ih h2]
          | completed => simp [isSecondNextEv] at h1
          | error e => simp [isSecondNextEv] at h1

/-- C5: the combination built by continue_with emits every value the first
observable emits before its completion, in order; values the second
observable produces before the first completes are dropped, not buffered;
after the first completes, values from the second are forwarded; and the
combination completes exactly when the second completes, not when the first
completes (after only the completion of the first, the emitted events are
just the forwarded values of the first, with no completion). -/
theorem continue_with_semantics :
    ∀ (γ δ : Type) (phase1 phase2 : List (SrcEv γ δ)),
      phase1.all isPhase1Ev = true → phase2.all isSecondNextEv = true →
      continue_with (phase1 ++ [SrcEv.fromFirst Ev.completed] ++ phase2
          ++ [SrcEv.fromSecond Ev.completed])
        = (firstNexts phase1).map Ev.next ++ (secondNexts phase2).map Ev.next
            ++ [Ev.completed] ∧
      continue_with (phase1 ++ [SrcEv.fromFirst Ev.completed])
        = (firstNexts phase1).map Ev.next := by
  intro γ δ p1 p2 h1 h2
  have e1 := continueWithRun_phase1 p1 h1
  have e2 := continueWithRun_phase2 p2 h2
  have eStep : continueWithRun ContState.forwardingFirst
      ([SrcEv.fromFirst Ev.completed] : List (SrcEv γ δ))
      = (ContState.forwardingSecond, []) := rfl
  have eStep2 : continueWithRun ContState.forwardingSecond
      ([SrcEv.fromSecond Ev.completed] : List (SrcEv γ δ))
      = (ContState.terminatedC, [Ev.completed]) := rfl
  constructor
  · show (continueWithRun ContState.forwardingFirst _).2 = _
    simp only [List.append_assoc]
    simp [continueWithRun_append, continueWithRun, continueWithStep, e1, e2]
  · show (continueWithRun ContState.forwardingFirst _).2 = _
    simp [continueWithRun_append, continueWithRun, continueWithStep, e1]

/-- Witness for C5, following the subject_continue_with test: first emits 2
and 5 and completes (the second producing 3 in between, which is dropped),
then the second emits 7 and completes. -/
theorem continue_with_semantics_w :
    ([SrcEv.fromFirst (Ev.next 2), SrcEv.fromSecond (Ev.next 3),
        SrcEv.fromFirst (Ev.next 5)] : List (SrcEv Nat Unit)).all isPhase1Ev = true ∧
    ([SrcEv.fromSecond (Ev.next 7)] : List (SrcEv Nat Unit)).all isSecondNextEv = true ∧
    continue_with (([SrcEv.fromFirst (Ev.next 2), SrcEv.fromSecond (Ev.next 3),
          SrcEv.fromFirst (Ev.next 5)] ++ [SrcEv.fromFirst Ev.completed]
        ++ [SrcEv.fromSecond (Ev.next 7)] ++ [SrcEv.fromSecond Ev.completed]
        : List (SrcEv Nat Unit)))
      = [Ev.next 2, Ev.next 5, Ev.next 7, Ev.completed] :=
  ⟨rfl, rfl,
    (continue_with_semantics Nat Unit
      [SrcEv.fromFirst (Ev.next 2), SrcEv.fromSecond (Ev.next 3),
        SrcEv.fromFirst (Ev.next 5)]
      [SrcEv.fromSecond (Ev.next 7)] rfl rfl).1⟩

end Rx

namespace Rx

/- Basic lemmas for the Subject invariant. -/

theorem mem_slotIds {s : SubjectState α ε} {i : Nat} :
    i ∈ SlotIds s ↔ some i ∈ s.slots := by
  simp [SlotIds, List.mem_filterMap]

theorem noTerminal_terminalLast {tr : List (Ev α ε)} (h : NoTerminal tr) :
    TerminalLast tr :=
  fun e he => h e ((List.dropLast_sublist tr).subset he)

theorem noTerminal_snoc {tr : List (Ev α ε)} {e : Ev α ε} (h : NoTerminal tr)
    (he : e.isTerminal = false) : NoTerminal (tr ++ [e]) := by
  intro x hx
  rcases List.mem_append.mp hx with hx | hx
  · exact h x hx
  · rw [List.mem_singleton] at hx
    subst hx
    exact he

theorem terminalLast_snoc {tr : List (Ev α ε)} (e : Ev α ε) (h : NoTerminal tr) :
    TerminalLast (tr ++ [e]) :=
  fun x hx => h x (by simpa using hx)

theorem noTerminal_nil : NoTerminal ([] : List (Ev α ε)) :=
  fun e he => absurd he (List.not_mem_nil e)

theorem clearSub_ids_sublist (j : Nat) (l : List (Option Nat)) :
    List.Sublist ((clearSub j l).filterMap id) (l.filterMap id) := by
  induction l with
  | nil => simp [clearSub]
  | cons o t ih =>
      cases o with
      | none => simpa [clearSub, List.filterMap_cons] using ih
      | some k =>
          by_cases h : k = j
          · subst h
            simpa [clearSub, List.filterMap_cons] using
              ih.trans (List.sublist_cons_self _ _)
          · simpa [clearSub, List.filterMap_cons, h] using List.Sublist.cons₂ k ih

theorem terminalLastB_of {tr : List (Ev α ε)} (h : TerminalLast tr) :
    terminalLastB tr = true := by
  rw [terminalLastB, List.all_eq_true]
  intro e he
  rw [Bool.not_eq_true']
  exact h e he

end Rx

namespace Rx

/- Preservation of the Subject invariant by each operation. -/

theorem foldl_preserve {γ δ : Type} {P : γ → Prop} (f : γ → δ → γ)
    (hf : ∀ a x, P a → P (f a x)) :
    ∀ (l : List δ) (a : γ), P a → P (l.foldl f a) := by
  intro l
  induction l with
  | nil => intro a h; simpa using h
  | cons x t ih =>
      intro a h
      rw [List.foldl_cons]
      exact ih (f a x) (hf a x h)

theorem subjectDispose_inv {s : SubjectState α ε} (j : Nat) (h : Inv s) :
    Inv (subjectDispose j s) := by
  have hsub := clearSub_ids_sublist j s.slots
  refine ⟨h.nodup.sublist hsub, fun i hi => h.lt_next i (hsub.subset hi), h.fresh,
    fun i hi => h.live i (hsub.subset hi), h.tlast, fun ht => ?_⟩
  show clearSub j s.slots = []
  rw [h.term ht]
  rfl

theorem appendFresh_inv {s : SubjectState α ε} (h : Inv s) (ht : s.terminated = false) :
    Inv { s with slots := s.slots ++ [some s.nextId], nextId := s.nextId + 1 } := by
  have hids : (s.slots ++ [some s.nextId]).filterMap id
      = s.slots.filterMap id ++ [s.nextId] := by
    simp [List.filterMap_append]
  have hfreshTrace : subTrace s s.nextId = [] := h.fresh s.nextId (Nat.le_refl _)
  refine ⟨?_, ?_, ?_, ?_, h.tlast, ?_⟩
  · show ((s.slots ++ [some s.nextId]).filterMap id).Nodup
    rw [hids]
    refine List.Nodup.append h.nodup (List.nodup_singleton _) ?_
    intro a ha hb
    rw [List.mem_singleton] at hb
    subst hb
    exact absurd (h.lt_next _ ha) (Nat.lt_irrefl _)
  · intro i hi
    have : i ∈ s.slots.filterMap id ++ [s.nextId] := by
      rw [← hids]; exact hi
    rcases List.mem_append.mp this with hi2 | hi2
    · exact Nat.lt_succ_of_lt (h.lt_next i hi2)
    · rw [List.mem_singleton] at hi2
      subst hi2
      exact Nat.lt_succ_self _
  · intro i hle
    exact h.fresh i (Nat.le_of_succ_le hle)
  · intro i hi
    have : i ∈ s.slots.filterMap id ++ [s.nextId] := by
      rw [← hids]; exact hi
    rcases List.mem_append.mp this with hi2 | hi2
    · exact h.live i hi2
    · rw [List.mem_singleton] at hi2
      subst hi2
      show NoTerminal (subTrace s s.nextId)
      rw [hfreshTrace]
      exact noTerminal_nil
  · intro hh
    exact absurd hh (by simp [ht])

theorem subjectSubscribe_inv {s : SubjectState α ε} (h : Inv s) :
    Inv (subjectSubscribe s) := by
  by_cases ht : s.terminated = true
  · rw [subjectSubscribe, if_pos ht]
    exact h
  · rw [subjectSubscribe, if_neg ht]
    exact appendFresh_inv h (by simpa using ht)

theorem applyReaction_inv {s : SubjectState α ε} (r : Reaction) (i : Nat)
    (h : Inv s) (ht : s.terminated = false) :
    Inv (applyReaction r i s) ∧ (applyReaction r i s).terminated = false := by
  cases r with
  | passive => exact ⟨h, ht⟩
  | disposeSelf => exact ⟨subjectDispose_inv i h, ht⟩
  | disposeSub j => exact ⟨subjectDispose_inv j h, ht⟩
  | subscribeNew =>
      rw [applyReaction]
      rw [if_neg (by simp [ht])]
      exact ⟨appendFresh_inv h ht, ht⟩

end Rx

namespace Rx

theorem recordNext_inv {s : SubjectState α ε} {i : Nat} (v : α) (h : Inv s)
    (hm : some i ∈ s.slots) :
    Inv { s with trace := s.trace ++ [(i, Ev.next v)], clones := s.clones + 1 } := by
  have hlt : i < s.nextId := h.lt_next i (mem_slotIds.mpr hm)
  refine ⟨h.nodup, h.lt_next, ?_, ?_, ?_, h.term⟩
  · intro j hle
    show subTraceL (s.trace ++ [(i, Ev.next v)]) j = []
    rw [subTraceL_snoc]
    have hne : i ≠ j := Nat.ne_of_lt (Nat.lt_of_lt_of_le hlt hle)
    rw [if_neg hne, List.append_nil]
    exact h.fresh j hle
  · intro j hj
    show NoTerminal (subTraceL (s.trace ++ [(i, Ev.next v)]) j)
    rw [subTraceL_snoc]
    by_cases hij : i = j
    · subst hij
      rw [if_pos rfl]
      exact noTerminal_snoc (h.live i hj) rfl
    · rw [if_neg hij, List.append_nil]
      exact h.live j hj
  · intro j
    show TerminalLast (subTraceL (s.trace ++ [(i, Ev.next v)]) j)
    rw [subTraceL_snoc]
    by_cases hij : i = j
    · subst hij
      rw [if_pos rfl]
      exact terminalLast_snoc _ (h.live i (mem_slotIds.mpr hm))
    · rw [if_neg hij, List.append_nil]
      exact h.tlast j

theorem deliverNext_inv (β : Nat → Reaction) (v : α) {acc : SubjectState α ε}
    (o : Option Nat) (h : Inv acc) (ht : acc.terminated = false) :
    Inv (deliverNext β v acc o) ∧ (deliverNext β v acc o).terminated = false := by
  cases o with
  | none => exact ⟨h, ht⟩
  | some i =>
      by_cases hm : some i ∈ acc.slots
      · simp only [deliverNext]
        rw [if_pos hm]
        exact applyReaction_inv _ _ (recordNext_inv v h hm) ht
      · simp only [deliverNext]
        rw [if_neg hm]
        exact ⟨h, ht⟩

theorem subjectOnNext_inv (β : Nat → Reaction) (v : α) {s : SubjectState α ε}
    (h : Inv s) : Inv (subjectOnNext β v s) := by
  by_cases ht : s.terminated = true
  · rw [subjectOnNext, if_pos ht]
    exact h
  · rw [subjectOnNext, if_neg ht]
    have ht2 : s.terminated = false := by simpa using ht
    exact (foldl_preserve (P := fun a => Inv a ∧ a.terminated = false)
      (deliverNext β v) (fun a o hp => deliverNext_inv β v o hp.1 hp.2)
      s.slots s ⟨h, ht2⟩).1

end Rx

namespace Rx

theorem invC_clear {acc : SubjectState α ε} {pending : List (Option Nat)} (j : Nat)
    (h : InvC acc pending) :
    InvC { acc with slots := clearSub j acc.slots } pending := by
  have hsub := clearSub_ids_sublist j acc.slots
  exact ⟨h.nodup.sublist hsub, fun i hi => h.lt_next i (hsub.subset hi), h.fresh,
    h.tlast, h.pnodup, h.plive, h.plt, h.pterm⟩

theorem applyReaction_invC {acc : SubjectState α ε} {pending : List (Option Nat)}
    (r : Reaction) (i : Nat) (h : InvC acc pending) :
    InvC (applyReaction r i acc) pending := by
  cases r with
  | passive => exact h
  | disposeSelf => exact invC_clear i h
  | disposeSub j => exact invC_clear j h
  | subscribeNew =>
      rw [applyReaction, if_pos h.pterm]
      exact h

theorem invC_weaken {acc : SubjectState α ε} {o : Option Nat}
    {rest : List (Option Nat)} (h : InvC acc (o :: rest)) : InvC acc rest := by
  refine ⟨h.nodup, h.lt_next, h.fresh, h.tlast, ?_, ?_, ?_, h.pterm⟩
  · exact h.pnodup.sublist ((List.sublist_cons_self o rest).filterMap id)
  · intro i hi
    exact h.plive i (List.mem_cons_of_mem o hi)
  · intro i hi
    exact h.plt i (List.mem_cons_of_mem o hi)

theorem recordTerminal_invC {acc : SubjectState α ε} {i : Nat}
    {rest : List (Option Nat)} (ev : Ev α ε) (h : InvC acc (some i :: rest)) :
    InvC { acc with trace := acc.trace ++ [(i, ev)] } rest := by
  have hheadmem : some i ∈ some i :: rest := List.mem_cons_self _ _
  have hlt : i < acc.nextId := h.plt i hheadmem
  have hnotin : i ∉ rest.filterMap id := by
    have := h.pnodup
    rw [List.filterMap_cons] at this
    simp only [id] at this
    exact (List.nodup_cons.mp this).1
  refine ⟨h.nodup, h.lt_next, ?_, ?_, ?_, ?_, ?_, h.pterm⟩
  · intro j hle
    show subTraceL (acc.trace ++ [(i, ev)]) j = []
    rw [subTraceL_snoc]
    have hne : i ≠ j := Nat.ne_of_lt (Nat.lt_of_lt_of_le hlt hle)
    rw [if_neg hne, List.append_nil]
    exact h.fresh j hle
  · intro j
    show TerminalLast (subTraceL (acc.trace ++ [(i, ev)]) j)
    rw [subTraceL_snoc]
    by_cases hij : i = j
    · subst hij
      rw [if_pos rfl]
      exact terminalLast_snoc _ (h.plive i hheadmem)
    · rw [if_neg hij, List.append_nil]
      exact h.tlast j
  · exact (List.nodup_cons.mp (by simpa [List.filterMap_cons] using h.pnodup)).2
  · intro j hj
    have hji : j ≠ i := by
      intro hji
      subst hji
      exact hnotin (List.mem_filterMap.mpr ⟨some j, hj, rfl⟩)
    show NoTerminal (subTraceL (acc.trace ++ [(i, ev)]) j)
    rw [subTraceL_snoc, if_neg (fun hij => hji hij.symm), List.append_nil]
    exact h.plive j (List.mem_cons_of_mem _ hj)
  · intro j hj
    exact h.plt j (List.mem_cons_of_mem _ hj)

theorem deliverTerminal_invC (β : Nat → Reaction) (ev : Ev α ε)
    {acc : SubjectState α ε} {o : Option Nat} {rest : List (Option Nat)}
    (h : InvC acc (o :: rest)) :
    InvC (deliverTerminal β ev acc o) rest := by
  cases o with
  | none => exact invC_weaken h
  | some i =>
      by_cases hm : some i ∈ acc.slots
      · simp only [deliverTerminal]
        rw [if_pos hm]
        exact applyReaction_invC _ _ (recordTerminal_invC ev h)
      · simp only [deliverTerminal]
        rw [if_neg hm]
        exact invC_weaken h

theorem foldTerminal_post (β : Nat → Reaction) (ev : Ev α ε) :
    ∀ (pending : List (Option Nat)) (acc : SubjectState α ε), InvC acc pending →
      (∀ i, TerminalLast (subTrace (pending.foldl (deliverTerminal β ev) acc) i)) ∧
      (∀ i, (pending.foldl (deliverTerminal β ev) acc).nextId ≤ i →
        subTrace (pending.foldl (deliverTerminal β ev) acc) i = []) := by
  intro pending
  induction pending with
  | nil => intro acc h; exact ⟨h.tlast, h.fresh⟩
  | cons o rest ih =>
      intro acc h
      rw [List.foldl_cons]
      exact ih _ (deliverTerminal_invC β ev h)

theorem subjectTerminate_inv (β : Nat → Reaction) (ev : Ev α ε)
    {s : SubjectState α ε} (h : Inv s) : Inv (subjectTerminate β ev s) := by
  by_cases ht : s.terminated = true
  · rw [subjectTerminate, if_pos ht]
    exact h
  · rw [subjectTerminate, if_neg ht]
    have h0 : InvC { s with terminated := true } s.slots :=
      ⟨h.nodup, h.lt_next, h.fresh, h.tlast, h.nodup,
        fun i hi => h.live i (mem_slotIds.mpr hi),
        fun i hi => h.lt_next i (mem_slotIds.mpr hi), rfl⟩
    obtain ⟨htl, hfr⟩ := foldTerminal_post β ev s.slots _ h0
    refine ⟨?_, ?_, hfr, ?_, htl, fun _ => rfl⟩
    · show (List.filterMap id []).Nodup
      simp
    · intro i hi
      exact absurd hi (by simp [SlotIds])
    · intro i hi
      exact absurd hi (by simp [SlotIds])

theorem subjectStep_inv (β : Nat → Reaction) {s : SubjectState α ε} (op : Op α ε)
    (h : Inv s) : Inv (subjectStep β s op) := by
  cases op with
  | subscribe => exact subjectSubscribe_inv h
  | dispose j => exact subjectDispose_inv j h
  | onNext v => exact subjectOnNext_inv β v h
  | onCompleted => exact subjectTerminate_inv β Ev.completed h
  | onError e => exact subjectTerminate_inv β (Ev.error e) h

theorem subjectInit_inv : Inv (subjectInit : SubjectState α ε) := by
  refine ⟨?_, ?_, ?_, ?_, ?_, fun hh => rfl⟩
  · show (List.filterMap id []).Nodup
    simp
  · intro i hi
    exact absurd hi (by simp [SlotIds, subjectInit])
  · intro i _
    rfl
  · intro i hi
    exact absurd hi (by simp [SlotIds, subjectInit])
  · intro i
    show TerminalLast (subTraceL [] i)
    intro e he
    exact absurd he (by simp [subTraceL])

theorem subjectRun_inv (β : Nat → Reaction) (ops : List (Op α ε)) :
    Inv (subjectRun β ops) :=
  foldl_preserve (subjectStep β) (fun _ op ha => subjectStep_inv β op ha) ops
    subjectInit subjectInit_inv

end Rx

namespace Rx

/-- C1: for every subscription into a Subject, at most one terminal
operation (completion or error) is ever invoked on its observer, and no
next event is invoked after that terminal operation — formalised as: in the
trace of events delivered to any subscription identity, over any sequence
of external operations run against a fresh Subject and any reentrant
callback behaviour, a terminal event can occur only in last position.  In
particular, calling on_completed twice on a Subject with one subscriber
invokes the completion of that subscriber exactly once. -/
theorem subject_terminal_exactly_once :
    (∀ (γ δ : Type) (β : Nat → Reaction) (ops : List (Op γ δ)) (i : Nat),
      terminalLastB (subTrace (subjectRun β ops) i) = true) ∧
    (subjectRun passiveAll
        ([Op.subscribe, Op.onCompleted, Op.onCompleted] : List (Op Nat Unit))).trace
      = [(0, Ev.completed)] := by
  constructor
  · intro γ δ β ops i
    exact terminalLastB_of ((subjectRun_inv β ops).tlast i)
  · rfl

end Rx
